import Mathlib

/- Formal model of the tradingJournal web application's trade records and its
   client-side reconciliation and aggregation logic.  Numbers that are IEEE
   doubles in the source are modelled as exact rationals; JavaScript runtime
   helpers that read ambient state (Date parsing, Date.toDateString, the
   clock) are surfaced as explicit function parameters of the model. -/

/-- A closed-position trade record, mirroring the Trade interface of the
types module: optional fields become Option, price and pnl fields are exact
rationals, the quantity is an integer. -/
structure Trade where
  id : String
  date : String
  symbol : String
  broker : String
  entryPrice : ℚ
  exitPrice : ℚ
  quantity : ℤ
  pnl : ℚ
  segment : String
  productType : Option String
  confidence : ℚ
  strategy : String
  notes : String
  mistake : String
  aiAnalysis : Option String
deriving DecidableEq

/-- JavaScript Number.prototype.toFixed(2) on an exact rational: round to the
nearest multiple of 1/100, ties toward the larger candidate. -/
def round2 (x : ℚ) : ℚ := ((⌊x * 100 + 1 / 2⌋ : ℤ) : ℚ) / 100

/-- JavaScript Math.round: nearest integer, ties toward positive infinity. -/
def jsRound (x : ℚ) : ℤ := ⌊x + 1 / 2⌋

/-- JavaScript Number.prototype.toFixed(1) on an exact rational. -/
def round1 (x : ℚ) : ℚ := ((⌊x * 10 + 1 / 2⌋ : ℤ) : ℚ) / 10

/-- The Trade built by NewTrade.handleSubmit from the parsed form fields:
the stored pnl is computed as (exit - entry) * qty from the same values that
are stored as entryPrice, exitPrice and quantity.  The generated id, the
current-time date string and the AI analysis text are parameters. -/
def mkManualTrade (idStr dateStr symbol broker : String) (entry exit : ℚ)
    (qty : ℤ) (segment : String) (confidence : ℚ)
    (strategy notes mistake aiText : String) : Trade :=
  { id := idStr
    date := dateStr
    symbol := symbol.toUpper
    broker := broker
    entryPrice := entry
    exitPrice := exit
    quantity := qty
    pnl := (exit - entry) * (qty : ℚ)
    segment := segment
    productType := none
    confidence := confidence
    strategy := strategy
    notes := notes
    mistake := mistake
    aiAnalysis := some aiText }

/-- One Trade produced by the loop body of fetchTradesFromBroker in the
broker API service.  The Math.random draws are parameters: isWin decides the
5% win or loss, entry is the integer entry price, qty the integer quantity.
The source stores entryPrice and exitPrice through toFixed(2) and the pnl as
toFixed(2) of (exit - entry) * qty computed from the unrounded exit. -/
def mkSyncTrade (brokerName idStr dateStr symbol : String) (isWin : Bool)
    (entry qty : ℕ) : Trade :=
  { id := idStr
    date := dateStr
    symbol := symbol
    broker := brokerName
    entryPrice := round2 (entry : ℚ)
    exitPrice := round2 (if isWin then (entry : ℚ) * (105 / 100) else (entry : ℚ) * (95 / 100))
    quantity := (qty : ℤ)
    pnl := round2 (((if isWin then (entry : ℚ) * (105 / 100) else (entry : ℚ) * (95 / 100)) - (entry : ℚ)) * (qty : ℚ))
    segment := "Equity"
    productType := none
    confidence := 5
    strategy := "Manual"
    notes := "Auto-synced"
    mistake := ""
    aiAnalysis := some "" }

/-- Store.addStrategy: append the supplied name only when it is not already
in the user-managed strategy list. -/
def addStrategy (strategies : List String) (s : String) : List String :=
  if s ∈ strategies then strategies else strategies ++ [s]

/-- The per-trade filter predicate of TradeHistory.groupedTrades (step 1);
none stands for the 'All' choice of the corresponding dropdown, and an
absent productType falls back to "Delivery" as in (t.productType || 'Delivery'). -/
def tradeFilter (fb fseg fstrat fpt : Option String) (t : Trade) : Bool :=
  (match fb with | none => true | some b => t.broker == b) &&
  (match fseg with | none => true | some sg => t.segment == sg) &&
  (match fstrat with | none => true | some st => t.strategy == st) &&
  (match fpt with | none => true | some p => (t.productType.getD "Delivery") == p)

/-- The filtering stage of TradeHistory.groupedTrades. -/
def filterTrades (fb fseg fstrat fpt : Option String) (trades : List Trade) : List Trade :=
  trades.filter (tradeFilter fb fseg fstrat fpt)

/-- Lookup in the Map built by new Map(updatedTrades.map(t => [t.id, t])):
for duplicate ids the later entry wins, as Map construction overwrites. -/
def mapGet (updates : List Trade) (i : String) : Option Trade :=
  match updates with
  | [] => none
  | u :: rest =>
    match mapGet rest i with
    | some r => some r
    | none => if u.id == i then some u else none

/-- The in-memory update of Store.updateTradesBulk:
prev.map(t => updatesMap.get(t.id) || t). -/
def updateTradesBulk (updates prev : List Trade) : List Trade :=
  prev.map (fun t => (mapGet updates t.id).getD t)

lemma round2_eq_self (x : ℚ) (m : ℤ) (h : x * 100 = (m : ℚ)) : round2 x = x := by
  have hx : x = (m : ℚ) / 100 := by
    rw [eq_div_iff (by norm_num : (100 : ℚ) ≠ 0)]
    exact h
  subst hx
  unfold round2
  rw [div_mul_cancel₀ _ (by norm_num : (100 : ℚ) ≠ 0)]
  rw [Int.floor_int_add]
  norm_num

/-- Claim C1: every Trade created by the manual journal-entry submission and
every Trade created by the broker API sync stores a pnl equal to
(exitPrice - entryPrice) * quantity exactly. -/
theorem pnl_determinism (idStr dateStr symbol broker segment strategy notes mistake aiText : String)
    (entry exit confidence : ℚ) (qty : ℤ)
    (brokerName idS dateS sym : String) (isWin : Bool) (entryN qtyN : ℕ) :
    (mkManualTrade idStr dateStr symbol broker entry exit qty segment confidence strategy notes mistake aiText).pnl
      = ((mkManualTrade idStr dateStr symbol broker entry exit qty segment confidence strategy notes mistake aiText).exitPrice
          - (mkManualTrade idStr dateStr symbol broker entry exit qty segment confidence strategy notes mistake aiText).entryPrice)
        * ((mkManualTrade idStr dateStr symbol broker entry exit qty segment confidence strategy notes mistake aiText).quantity : ℚ)
    ∧ (mkSyncTrade brokerName idS dateS sym isWin entryN qtyN).pnl
      = ((mkSyncTrade brokerName idS dateS sym isWin entryN qtyN).exitPrice
          - (mkSyncTrade brokerName idS dateS sym isWin entryN qtyN).entryPrice)
        * ((mkSyncTrade brokerName idS dateS sym isWin entryN qtyN).quantity : ℚ) := by
  constructor
  · rfl
  · show round2 (((if isWin then (entryN : ℚ) * (105 / 100) else (entryN : ℚ) * (95 / 100)) - (entryN : ℚ)) * (qtyN : ℚ))
      = (round2 (if isWin then (entryN : ℚ) * (105 / 100) else (entryN : ℚ) * (95 / 100)) - round2 (entryN : ℚ)) * ((qtyN : ℤ) : ℚ)
    have hentry : round2 (entryN : ℚ) = (entryN : ℚ) := by
      apply round2_eq_self _ (entryN * 100)
      push_cast
      ring
    cases isWin with
    | true =>
      have hexit : round2 ((entryN : ℚ) * (105 / 100)) = (entryN : ℚ) * (105 / 100) := by
        apply round2_eq_self _ (entryN * 105)
        push_cast
        ring
      have hpnl : round2 (((entryN : ℚ) * (105 / 100) - (entryN : ℚ)) * (qtyN : ℚ))
          = ((entryN : ℚ) * (105 / 100) - (entryN : ℚ)) * (qtyN : ℚ) := by
        apply round2_eq_self _ (entryN * 5 * qtyN)
        push_cast
        ring
      show round2 (((entryN : ℚ) * (105 / 100) - (entryN : ℚ)) * (qtyN : ℚ))
        = (round2 ((entryN : ℚ) * (105 / 100)) - round2 (entryN : ℚ)) * ((qtyN : ℤ) : ℚ)
      rw [hexit, hentry, hpnl]
      push_cast
      ring
    | false =>
      have hexit : round2 ((entryN : ℚ) * (95 / 100)) = (entryN : ℚ) * (95 / 100) := by
        apply round2_eq_self _ (entryN * 95)
        push_cast
        ring
      have hpnl : round2 (((entryN : ℚ) * (95 / 100) - (entryN : ℚ)) * (qtyN : ℚ))
          = ((entryN : ℚ) * (95 / 100) - (entryN : ℚ)) * (qtyN : ℚ) := by
        apply round2_eq_self _ (-(entryN * 5 * qtyN))
        push_cast
        ring
      show round2 (((entryN : ℚ) * (95 / 100) - (entryN : ℚ)) * (qtyN : ℚ))
        = (round2 ((entryN : ℚ) * (95 / 100)) - round2 (entryN : ℚ)) * ((qtyN : ℤ) : ℚ)
      rw [hexit, hentry, hpnl]
      push_cast
      ring

/-- Claim C10: addStrategy leaves the list unchanged when the name is present,
appends it otherwise, and preserves distinctness of the strategy list. -/
theorem addStrategy_spec (l : List String) (s : String) :
    (s ∈ l → addStrategy l s = l)
    ∧ (s ∉ l → addStrategy l s = l ++ [s])
    ∧ (l.Nodup → (addStrategy l s).Nodup) := by
  refine ⟨fun h => ?_, fun h => ?_, fun h => ?_⟩
  · simp [addStrategy, h]
  · simp [addStrategy, h]
  · by_cases hs : s ∈ l
    · simpa [addStrategy, hs] using h
    · simp only [addStrategy, hs, if_false]
      rw [List.nodup_append]
      exact ⟨h, List.nodup_singleton s, by simpa using hs⟩

/-- Claim C8: a Trade with an absent productType passes the Delivery filter
and is excluded by the Intraday filter. -/
theorem productType_default_spec (trades : List Trade) (t : Trade)
    (h1 : t ∈ trades) (h2 : t.productType = none) :
    t ∈ filterTrades none none none (some "Delivery") trades
    ∧ t ∉ filterTrades none none none (some "Intraday") trades := by
  constructor
  · simp [filterTrades, List.mem_filter, tradeFilter, h1, h2]
  · simp [filterTrades, List.mem_filter, tradeFilter, h2]

lemma mapGet_cons_some (v : Trade) (rest : List Trade) (i : String) (r : Trade)
    (hr : mapGet rest i = some r) : mapGet (v :: rest) i = some r := by
  rw [mapGet, hr]

lemma mapGet_cons_none (v : Trade) (rest : List Trade) (i : String)
    (hr : mapGet rest i = none) :
    mapGet (v :: rest) i = if v.id == i then some v else none := by
  rw [mapGet, hr]

lemma mapGet_some_mem (updates : List Trade) (i : String) :
    ∀ u, mapGet updates i = some u → u ∈ updates ∧ u.id = i := by
  induction updates with
  | nil => intro u h; simp [mapGet] at h
  | cons v rest ih =>
    intro u h
    cases hr : mapGet rest i with
    | some r =>
      rw [mapGet_cons_some v rest i r hr] at h
      obtain ⟨hm, hid⟩ := ih r hr
      have h2 : r = u := by injection h
      subst h2
      exact ⟨List.mem_cons_of_mem _ hm, hid⟩
    | none =>
      rw [mapGet_cons_none v rest i hr] at h
      by_cases hv : v.id = i
      · rw [if_pos (by simpa using hv)] at h
        cases h
        exact ⟨List.mem_cons_self _ _, hv⟩
      · rw [if_neg (by simpa using hv)] at h
        cases h

lemma mapGet_none_iff (updates : List Trade) (i : String) :
    mapGet updates i = none ↔ i ∉ updates.map (fun u => u.id) := by
  induction updates with
  | nil => simp [mapGet]
  | cons v rest ih =>
    cases hr : mapGet rest i with
    | some r =>
      rw [mapGet_cons_some v rest i r hr]
      obtain ⟨hm, hid⟩ := mapGet_some_mem rest i r hr
      have hmem : i ∈ rest.map (fun u => u.id) := by
        rw [← hid]
        exact List.mem_map_of_mem _ hm
      simp [hmem]
    | none =>
      rw [mapGet_cons_none v rest i hr]
      have hrest := ih.mp hr
      by_cases hv : v.id = i
      · simp [hv]
      · have hv2 : ¬ i = v.id := fun h => hv h.symm
        simp [hv, hv2, hrest]

/-- Claim C9: updateTradesBulk preserves length and the pointwise sequence of
ids (so no supplied Trade with a new id is added and the order is kept);
positions whose id is not among the updates are unchanged, and positions
whose id is among the updates are replaced by a supplied Trade of that id. -/
theorem updateTradesBulk_frame (updates prev : List Trade) :
    (updateTradesBulk updates prev).length = prev.length
    ∧ (updateTradesBulk updates prev).map (fun t => t.id) = prev.map (fun t => t.id)
    ∧ ∀ i, ∀ hi : i < prev.length, ∀ hi2 : i < (updateTradesBulk updates prev).length,
        ((prev.get ⟨i, hi⟩).id ∉ updates.map (fun u => u.id) →
          (updateTradesBulk updates prev).get ⟨i, hi2⟩ = prev.get ⟨i, hi⟩)
        ∧ ((prev.get ⟨i, hi⟩).id ∈ updates.map (fun u => u.id) →
          (updateTradesBulk updates prev).get ⟨i, hi2⟩ ∈ updates
          ∧ ((updateTradesBulk updates prev).get ⟨i, hi2⟩).id = (prev.get ⟨i, hi⟩).id) := by
  have hid : ∀ t : Trade, ((mapGet updates t.id).getD t).id = t.id := by
    intro t
    cases h : mapGet updates t.id with
    | none => rfl
    | some u => simpa using (mapGet_some_mem updates t.id u h).2
  refine ⟨by simp [updateTradesBulk], ?_, ?_⟩
  · rw [updateTradesBulk, List.map_map]
    apply List.map_congr_left
    intro t _
    exact hid t
  · intro i hi hi2
    have hget : (updateTradesBulk updates prev).get ⟨i, hi2⟩
        = (mapGet updates (prev.get ⟨i, hi⟩).id).getD (prev.get ⟨i, hi⟩) := by
      simp [updateTradesBulk]
    constructor
    · intro hnot
      rw [hget, (mapGet_none_iff updates _).mpr hnot]
      rfl
    · intro hmem
      cases h : mapGet updates (prev.get ⟨i, hi⟩).id with
      | none => exact absurd hmem ((mapGet_none_iff updates _).mp h)
      | some u =>
        obtain ⟨hu, huid⟩ := mapGet_some_mem updates _ u h
        rw [hget, h]
        exact ⟨hu, huid⟩

/-- One step of building a JavaScript object used as a keyed accumulator:
when the key is already present its value is updated in place, otherwise a
fresh entry is appended (object string keys iterate in insertion order). -/
def bumpAssoc {α β : Type} (init : α → β) (upd : β → α → β) :
    List (String × β) → String → α → List (String × β)
  | [], k, x => [(k, init x)]
  | p :: rest, k, x =>
    if p.1 = k then (p.1, upd p.2 x) :: rest else p :: bumpAssoc init upd rest k x

/-- A fold mirroring reduce/forEach accumulation into a keyed object. -/
def accumulate {α β : Type} (key : α → String) (init : α → β) (upd : β → α → β)
    (l : List α) : List (String × β) :=
  l.foldl (fun acc x => bumpAssoc init upd acc (key x) x) []

/-- Property lookup on the modelled object. -/
def lookupFirst {β : Type} : List (String × β) → String → Option β
  | [], _ => none
  | p :: rest, k => if p.1 = k then some p.2 else lookupFirst rest k

/-- The insertion-order list of distinct keys, i.e. the iteration order of
Object.keys over values inserted in this order. -/
def firstOccurrences (l : List String) : List String :=
  l.foldl (fun ks s => if s ∈ ks then ks else ks ++ [s]) []

lemma bumpAssoc_fst {α β : Type} (init : α → β) (upd : β → α → β)
    (acc : List (String × β)) (k : String) (x : α) :
    (bumpAssoc init upd acc k x).map Prod.fst =
      if k ∈ acc.map Prod.fst then acc.map Prod.fst else acc.map Prod.fst ++ [k] := by
  induction acc with
  | nil => simp [bumpAssoc]
  | cons p rest ih =>
    by_cases hp : p.1 = k
    · simp [bumpAssoc, hp]
    · have hk : ¬ k = p.1 := fun h => hp h.symm
      by_cases hmem : k ∈ rest.map Prod.fst
      · simp [bumpAssoc, hp, hk, hmem, ih]
      · simp [bumpAssoc, hp, hk, hmem, ih]

lemma bumpAssoc_lookup_self {α β : Type} (init : α → β) (upd : β → α → β)
    (acc : List (String × β)) (k : String) (x : α) :
    lookupFirst (bumpAssoc init upd acc k x) k =
      some (match lookupFirst acc k with | none => init x | some v => upd v x) := by
  induction acc with
  | nil => simp [bumpAssoc, lookupFirst]
  | cons p rest ih =>
    by_cases hp : p.1 = k
    · simp [bumpAssoc, hp, lookupFirst]
    · simp [bumpAssoc, hp, lookupFirst, ih]

lemma bumpAssoc_lookup_ne {α β : Type} (init : α → β) (upd : β → α → β)
    (acc : List (String × β)) (k k2 : String) (x : α) (h : k2 ≠ k) :
    lookupFirst (bumpAssoc init upd acc k x) k2 = lookupFirst acc k2 := by
  induction acc with
  | nil => simp [bumpAssoc, lookupFirst, Ne.symm h]
  | cons p rest ih =>
    by_cases hp : p.1 = k
    · have hp2 : ¬ p.1 = k2 := by rw [hp]; exact Ne.symm h
      simp [bumpAssoc, hp, lookupFirst, hp2, Ne.symm h]
    · by_cases hp2 : p.1 = k2
      · simp [bumpAssoc, hp, lookupFirst, hp2, h]
      · simp [bumpAssoc, hp, lookupFirst, hp2, ih]

lemma bumpAssoc_sum {α β γ : Type} [AddCommMonoid γ] (init : α → β) (upd : β → α → β)
    (f : β → γ) (g : α → γ)
    (hinit : ∀ x, f (init x) = g x) (hupd : ∀ v x, f (upd v x) = f v + g x)
    (acc : List (String × β)) (k : String) (x : α) :
    ((bumpAssoc init upd acc k x).map (fun p => f p.2)).sum
      = (acc.map (fun p => f p.2)).sum + g x := by
  induction acc with
  | nil => simp [bumpAssoc, hinit]
  | cons p rest ih =>
    by_cases hp : p.1 = k
    · simp only [bumpAssoc, if_pos hp, List.map_cons, List.sum_cons, hupd]
      abel
    · simp only [bumpAssoc, if_neg hp, List.map_cons, List.sum_cons, ih]
      abel

lemma bumpAssoc_pres {α β : Type} (init : α → β) (upd : β → α → β) (P : β → Prop)
    (hinit : ∀ x, P (init x)) (hupd : ∀ v x, P v → P (upd v x))
    (acc : List (String × β)) (k : String) (x : α) (hacc : ∀ p ∈ acc, P p.2) :
    ∀ p ∈ bumpAssoc init upd acc k x, P p.2 := by
  induction acc with
  | nil =>
    intro p hp
    simp only [bumpAssoc, List.mem_singleton] at hp
    subst hp
    exact hinit x
  | cons q rest ih =>
    intro p hp
    by_cases hq : q.1 = k
    · simp only [bumpAssoc, if_pos hq, List.mem_cons] at hp
      rcases hp with hp | hp
      · subst hp
        exact hupd _ _ (hacc q (List.mem_cons_self _ _))
      · exact hacc p (List.mem_cons_of_mem _ hp)
    · simp only [bumpAssoc, if_neg hq, List.mem_cons] at hp
      rcases hp with hp | hp
      · rw [hp]
        exact hacc q (List.mem_cons_self _ _)
      · exact ih (fun r hr => hacc r (List.mem_cons_of_mem _ hr)) p hp

def optStep {α β : Type} (init : α → β) (upd : β → α → β) (o : Option β) (x : α) : Option β :=
  some (match o with | none => init x | some v => upd v x)

lemma accumulate_sum_aux {α β γ : Type} [AddCommMonoid γ] (key : α → String)
    (init : α → β) (upd : β → α → β) (f : β → γ) (g : α → γ)
    (hinit : ∀ x, f (init x) = g x) (hupd : ∀ v x, f (upd v x) = f v + g x) :
    ∀ (l : List α) (acc : List (String × β)),
      ((l.foldl (fun a x => bumpAssoc init upd a (key x) x) acc).map (fun p => f p.2)).sum
        = (acc.map (fun p => f p.2)).sum + (l.map g).sum := by
  intro l
  induction l with
  | nil => intro acc; simp
  | cons x xs ih =>
    intro acc
    simp only [List.foldl_cons, List.map_cons, List.sum_cons]
    rw [ih, bumpAssoc_sum init upd f g hinit hupd]
    abel

lemma accumulate_pres {α β : Type} (key : α → String)
    (init : α → β) (upd : β → α → β) (P : β → Prop)
    (hinit : ∀ x, P (init x)) (hupd : ∀ v x, P v → P (upd v x)) :
    ∀ (l : List α) (acc : List (String × β)), (∀ p ∈ acc, P p.2) →
      ∀ p ∈ l.foldl (fun a x => bumpAssoc init upd a (key x) x) acc, P p.2 := by
  intro l
  induction l with
  | nil => intro acc hacc; simpa using hacc
  | cons x xs ih =>
    intro acc hacc
    simp only [List.foldl_cons]
    exact ih _ (bumpAssoc_pres init upd P hinit hupd acc (key x) x hacc)

lemma accumulate_lookup_aux {α β : Type} (key : α → String)
    (init : α → β) (upd : β → α → β) (k : String) :
    ∀ (l : List α) (acc : List (String × β)),
      lookupFirst (l.foldl (fun a x => bumpAssoc init upd a (key x) x) acc) k
        = (l.filter (fun x => key x == k)).foldl (optStep init upd) (lookupFirst acc k) := by
  intro l
  induction l with
  | nil => intro acc; simp
  | cons x xs ih =>
    intro acc
    simp only [List.foldl_cons, List.filter_cons]
    by_cases hx : key x = k
    · rw [if_pos (by simpa using hx), List.foldl_cons, ih]
      congr 1
      rw [hx, bumpAssoc_lookup_self]
      rfl
    · rw [if_neg (by simpa using hx), ih]
      congr 1
      exact bumpAssoc_lookup_ne init upd acc (key x) k x (fun hh => hx hh.symm)

lemma optStep_foldl_some {α β : Type} (init : α → β) (upd : β → α → β) :
    ∀ (ys : List α) (v : β), ys.foldl (optStep init upd) (some v) = some (ys.foldl upd v) := by
  intro ys
  induction ys with
  | nil => intro v; rfl
  | cons y ys ih => intro v; exact ih (upd v y)

lemma accumulate_lookup {α β : Type} (key : α → String)
    (init : α → β) (upd : β → α → β) (l : List α) (k : String) :
    lookupFirst (accumulate key init upd l) k
      = match l.filter (fun x => key x == k) with
        | [] => none
        | y :: ys => some (ys.foldl upd (init y)) := by
  rw [accumulate, accumulate_lookup_aux]
  cases hf : l.filter (fun x => key x == k) with
  | nil => rfl
  | cons y ys =>
    show (y :: ys).foldl (optStep init upd) (lookupFirst [] k) = _
    simp only [lookupFirst, List.foldl_cons]
    rw [show optStep init upd none y = some (init y) from rfl]
    rw [optStep_foldl_some]

lemma accumulate_fst_aux {α β : Type} (key : α → String)
    (init : α → β) (upd : β → α → β) :
    ∀ (l : List α) (acc : List (String × β)),
      (l.foldl (fun a x => bumpAssoc init upd a (key x) x) acc).map Prod.fst
        = l.foldl (fun ks x => if key x ∈ ks then ks else ks ++ [key x]) (acc.map Prod.fst) := by
  intro l
  induction l with
  | nil => intro acc; rfl
  | cons x xs ih =>
    intro acc
    simp only [List.foldl_cons]
    rw [ih, bumpAssoc_fst]

lemma accumulate_fst {α β : Type} (key : α → String)
    (init : α → β) (upd : β → α → β) (l : List α) :
    (accumulate key init upd l).map Prod.fst = firstOccurrences (l.map key) := by
  rw [accumulate, accumulate_fst_aux, firstOccurrences, List.foldl_map]
  rfl

lemma keyFold_mem : ∀ (l : List String) (ks : List String) (s : String),
    (s ∈ l.foldl (fun ks t => if t ∈ ks then ks else ks ++ [t]) ks ↔ s ∈ ks ∨ s ∈ l) := by
  intro l
  induction l with
  | nil => intro ks s; simp
  | cons t ts ih =>
    intro ks s
    simp only [List.foldl_cons]
    by_cases ht : t ∈ ks
    · rw [if_pos ht, ih]
      simp only [List.mem_cons]
      constructor
      · rintro (h | h)
        · exact Or.inl h
        · exact Or.inr (Or.inr h)
      · rintro (h | h | h)
        · exact Or.inl h
        · exact Or.inl (h ▸ ht)
        · exact Or.inr h
    · rw [if_neg ht, ih]
      simp only [List.mem_append, List.mem_singleton, List.mem_cons]
      tauto

lemma keyFold_nodup : ∀ (l : List String) (ks : List String), ks.Nodup →
    (l.foldl (fun ks t => if t ∈ ks then ks else ks ++ [t]) ks).Nodup := by
  intro l
  induction l with
  | nil => intro ks h; simpa using h
  | cons t ts ih =>
    intro ks h
    simp only [List.foldl_cons]
    by_cases ht : t ∈ ks
    · rw [if_pos ht]
      exact ih ks h
    · rw [if_neg ht]
      apply ih
      rw [List.nodup_append]
      exact ⟨h, List.nodup_singleton t, by simpa using ht⟩

lemma firstOccurrences_nodup (l : List String) : (firstOccurrences l).Nodup :=
  keyFold_nodup l [] List.nodup_nil

lemma firstOccurrences_mem (l : List String) (s : String) :
    s ∈ firstOccurrences l ↔ s ∈ l := by
  rw [firstOccurrences, keyFold_mem]
  simp

lemma accumulate_keys_nodup {α β : Type} (key : α → String)
    (init : α → β) (upd : β → α → β) (l : List α) :
    ((accumulate key init upd l).map Prod.fst).Nodup := by
  rw [accumulate_fst]
  exact firstOccurrences_nodup _

lemma lookupFirst_of_mem_nodup {β : Type} :
    ∀ (l : List (String × β)), ((l.map Prod.fst).Nodup) →
      ∀ p ∈ l, lookupFirst l p.1 = some p.2 := by
  intro l
  induction l with
  | nil => intro _ p hp; simp at hp
  | cons q rest ih =>
    intro hnd p hp
    simp only [List.map_cons, List.nodup_cons] at hnd
    rcases List.mem_cons.mp hp with hp | hp
    · rw [hp]
      simp [lookupFirst]
    · have hne : ¬ q.1 = p.1 := by
        intro he
        exact hnd.1 (by rw [he]; exact List.mem_map_of_mem _ hp)
      simp only [lookupFirst, if_neg hne]
      exact ih hnd.2 p hp

/-- The view-level aggregate of TradeHistory: one row per
(calendar day, symbol, broker) key, holding running totals and the ordered
list of constituent trades. -/
structure GroupedTrade where
  id : String
  date : String
  symbol : String
  broker : String
  totalPnL : ℚ
  totalQty : ℤ
  trades : List Trade
deriving DecidableEq

/-- The composite group key dateKey_symbol_broker of
TradeHistory.groupedTrades; dayOf stands for new Date(d).toDateString(). -/
def groupKey (dayOf : String → String) (t : Trade) : String :=
  dayOf t.date ++ "_" ++ t.symbol ++ "_" ++ t.broker

/-- A fresh group as created on first sight of a key, already holding the
first trade (the source creates a zeroed group and immediately pushes). -/
def groupInit (dayOf : String → String) (t : Trade) : GroupedTrade :=
  { id := groupKey dayOf t
    date := t.date
    symbol := t.symbol
    broker := t.broker
    totalPnL := 0 + t.pnl
    totalQty := 0 + t.quantity
    trades := [t] }

/-- Adding one more trade to an existing group. -/
def groupUpd (g : GroupedTrade) (t : Trade) : GroupedTrade :=
  { g with
    trades := g.trades ++ [t]
    totalPnL := g.totalPnL + t.pnl
    totalQty := g.totalQty + t.quantity }

/-- The grouping stage (step 2) of TradeHistory.groupedTrades, returning
Object.values of the keyed accumulator in insertion order. -/
def groupTrades (dayOf : String → String) (trades : List Trade) : List GroupedTrade :=
  (accumulate (groupKey dayOf) (groupInit dayOf) groupUpd trades).map Prod.snd

/-- Claim C2: grouping is sum-preserving: the totalPnL of all groups sums to
the pnl of all input trades, and each group's totalPnL and totalQty are the
sums of pnl and quantity over exactly its constituent trades. -/
theorem grouping_sum_spec (dayOf : String → String) (trades : List Trade) :
    ((groupTrades dayOf trades).map (fun g => g.totalPnL)).sum
      = (trades.map (fun t => t.pnl)).sum
    ∧ ∀ g ∈ groupTrades dayOf trades,
        g.totalPnL = (g.trades.map (fun t => t.pnl)).sum
        ∧ g.totalQty = (g.trades.map (fun t => t.quantity)).sum := by
  constructor
  · have h := accumulate_sum_aux (groupKey dayOf) (groupInit dayOf) groupUpd
      (fun g => g.totalPnL) (fun t => t.pnl)
      (fun x => by simp [groupInit])
      (fun v x => by simp [groupUpd])
      trades []
    rw [groupTrades, List.map_map]
    simpa using h
  · intro g hg
    rw [groupTrades] at hg
    obtain ⟨p, hp, hps⟩ := List.mem_map.mp hg
    have hpres := accumulate_pres (groupKey dayOf) (groupInit dayOf) groupUpd
      (fun g => g.totalPnL = (g.trades.map (fun t => t.pnl)).sum
        ∧ g.totalQty = (g.trades.map (fun t => t.quantity)).sum)
      (fun x => by simp [groupInit])
      (fun v x hv => by simp [groupUpd, hv.1, hv.2])
      trades [] (by simp) p hp
    rw [← hps]
    exact hpres

/-- The record returned by Store.getMetrics; bestBroker = none models the
string 'N/A'. -/
structure Metrics where
  totalPnL : ℚ
  winRate : ℚ
  avgTradeValue : ℚ
  totalTrades : ℕ
  tradesToday : ℕ
  bestBroker : Option String
deriving DecidableEq

/-- One comparison step of the bestBroker scan: maxPnL starts at -Infinity
(modelled as none, below every rational) and a broker replaces the current
best only on a strictly greater summed pnl. -/
def bestStep (acc : Option String × Option ℚ) (kv : String × ℚ) : Option String × Option ℚ :=
  match acc.2 with
  | none => (some kv.1, some kv.2)
  | some m => if m < kv.2 then (some kv.1, some kv.2) else acc

/-- Store.getMetrics.  dayOf stands for new Date(d).toDateString() and today
for the ambient new Date().toDateString() that the source reads from the
clock on every call. -/
def getMetrics (dayOf : String → String) (today : String) (trades : List Trade) : Metrics :=
  { totalPnL := (trades.map (fun t => t.pnl)).sum
    winRate :=
      if 0 < trades.length then
        (((trades.filter (fun t => decide (0 < t.pnl))).length : ℚ) / (trades.length : ℚ)) * 100
      else 0
    avgTradeValue :=
      if 0 < trades.length then (trades.map (fun t => t.pnl)).sum / (trades.length : ℚ) else 0
    totalTrades := trades.length
    tradesToday := (trades.filter (fun t => dayOf t.date == today)).length
    bestBroker :=
      ((accumulate (fun t => t.broker) (fun t => t.pnl) (fun v t => v + t.pnl) trades).foldl
        bestStep (none, none)).1 }

/-- Claim C4: the win rate is the number of trades with strictly positive
pnl over the number of trades, times 100, and 0 for the empty collection;
a pnl of exactly 0 is not a win. -/
theorem winRate_spec (dayOf : String → String) (today : String) (trades : List Trade) :
    (getMetrics dayOf today trades).winRate
      = if 0 < trades.length then
          ((trades.countP (fun t => decide (0 < t.pnl)) : ℚ) / (trades.length : ℚ)) * 100
        else 0 := by
  simp [getMetrics, List.countP_eq_length_filter]

/-- A concrete stored trade used to exhibit the clock dependence of
getMetrics. -/
def sampleTrade : Trade :=
  { id := "1"
    date := "D1"
    symbol := "AAPL"
    broker := "Zerodha"
    entryPrice := 10
    exitPrice := 11
    quantity := 5
    pnl := 5
    segment := "Equity"
    productType := none
    confidence := 5
    strategy := "Manual"
    notes := ""
    mistake := ""
    aiAnalysis := none }

/-- Claim C5 counterexample: the same unchanged one-trade collection yields
different metrics when the clock-supplied current day differs (the trade
falls on day D1), so metrics is not a pure function of the collection
alone: tradesToday reads hidden state. -/
theorem metrics_clock_counterexample :
    getMetrics id "D1" [sampleTrade] ≠ getMetrics id "D2" [sampleTrade] :=
  fun h => absurd (congrArg Metrics.tradesToday h) (by decide)

/-- Claim C5 amended: metrics is deterministic given the trade collection
and the current calendar day: every field except tradesToday is a pure
function of the collection alone, unaffected by the clock-supplied day. -/
theorem metrics_pure_given_day (dayOf : String → String) (d1 d2 : String) (trades : List Trade) :
    (getMetrics dayOf d1 trades).totalPnL = (getMetrics dayOf d2 trades).totalPnL
    ∧ (getMetrics dayOf d1 trades).winRate = (getMetrics dayOf d2 trades).winRate
    ∧ (getMetrics dayOf d1 trades).avgTradeValue = (getMetrics dayOf d2 trades).avgTradeValue
    ∧ (getMetrics dayOf d1 trades).totalTrades = (getMetrics dayOf d2 trades).totalTrades
    ∧ (getMetrics dayOf d1 trades).bestBroker = (getMetrics dayOf d2 trades).bestBroker :=
  ⟨rfl, rfl, rfl, rfl, rfl⟩

/-- Summed pnl of a broker over a trade collection. -/
def sumPnlFor (trades : List Trade) (b : String) : ℚ :=
  ((trades.filter (fun t => t.broker == b)).map (fun t => t.pnl)).sum

lemma foldl_add_pnl : ∀ (ys : List Trade) (v : ℚ),
    ys.foldl (fun v t => v + t.pnl) v = v + (ys.map (fun t => t.pnl)).sum := by
  intro ys
  induction ys with
  | nil => intro v; simp
  | cons y ys ih =>
    intro v
    simp only [List.foldl_cons, List.map_cons, List.sum_cons, ih]
    ring

lemma bestFold_aux : ∀ (l : List (String × ℚ)) (b : String) (m : ℚ),
    (l.foldl bestStep (some b, some m) = (some b, some m) ∧ ∀ p ∈ l, p.2 ≤ m)
    ∨ (∃ i, ∃ hi : i < l.length,
        l.foldl bestStep (some b, some m) = (some (l[i]).1, some (l[i]).2)
        ∧ m < (l[i]).2
        ∧ (∀ p ∈ l, p.2 ≤ (l[i]).2)
        ∧ ∀ j, ∀ hj : j < l.length, j < i → (l[j]).2 < (l[i]).2) := by
  intro l
  induction l with
  | nil =>
    intro b m
    left
    exact ⟨rfl, by simp⟩
  | cons p rest ih =>
    intro b m
    simp only [List.foldl_cons]
    by_cases hpm : m < p.2
    · rw [show bestStep (some b, some m) p = (some p.1, some p.2) from by simp [bestStep, hpm]]
      rcases ih p.1 p.2 with ⟨heq, hle⟩ | ⟨i, hi, heq, hgt, hle, hstrict⟩
      · right
        refine ⟨0, by simp, ?_, by simpa using hpm, ?_, ?_⟩
        · simpa using heq
        · intro q hq
          rcases List.mem_cons.mp hq with hq | hq
          · rw [hq]; simp
          · simpa using hle q hq
        · intro j hj hj0
          exact absurd hj0 (Nat.not_lt_zero j)
      · right
        refine ⟨i + 1, Nat.succ_lt_succ hi, ?_, ?_, ?_, ?_⟩
        · simpa using heq
        · simpa using lt_trans hpm hgt
        · intro q hq
          rcases List.mem_cons.mp hq with hq | hq
          · rw [hq]; simpa using le_of_lt hgt
          · simpa using hle q hq
        · intro j hj hj1
          cases j with
          | zero => simpa using hgt
          | succ j2 =>
            have hj2 : j2 < rest.length := by
              simp only [List.length_cons] at hj
              omega
            have := hstrict j2 hj2 (by omega)
            simpa using this
    · rw [show bestStep (some b, some m) p = (some b, some m) from by simp [bestStep, hpm]]
      rcases ih b m with ⟨heq, hle⟩ | ⟨i, hi, heq, hgt, hle, hstrict⟩
      · left
        refine ⟨heq, ?_⟩
        intro q hq
        rcases List.mem_cons.mp hq with hq | hq
        · rw [hq]; exact le_of_not_lt hpm
        · exact hle q hq
      · right
        refine ⟨i + 1, Nat.succ_lt_succ hi, ?_, ?_, ?_, ?_⟩
        · simpa using heq
        · simpa using hgt
        · intro q hq
          rcases List.mem_cons.mp hq with hq | hq
          · rw [hq]
            simpa using le_trans (le_of_not_lt hpm) (le_of_lt hgt)
          · simpa using hle q hq
        · intro j hj hj1
          cases j with
          | zero => simpa using lt_of_le_of_lt (le_of_not_lt hpm) hgt
          | succ j2 =>
            have hj2 : j2 < rest.length := by
              simp only [List.length_cons] at hj
              omega
            have := hstrict j2 hj2 (by omega)
            simpa using this

lemma bestFold_first_argmax : ∀ (l : List (String × ℚ)), l ≠ [] →
    ∃ i, ∃ hi : i < l.length,
      (l.foldl bestStep (none, none)).1 = some (l[i]).1
      ∧ (∀ p ∈ l, p.2 ≤ (l[i]).2)
      ∧ ∀ j, ∀ hj : j < l.length, j < i → (l[j]).2 < (l[i]).2 := by
  intro l hl
  cases l with
  | nil => exact absurd rfl hl
  | cons p rest =>
    rw [List.foldl_cons, show bestStep (none, none) p = (some p.1, some p.2) from rfl]
    rcases bestFold_aux rest p.1 p.2 with ⟨heq, hle⟩ | ⟨i, hi, heq, hgt, hle, hstrict⟩
    · refine ⟨0, by simp, ?_, ?_, ?_⟩
      · rw [heq]; simp
      · intro q hq
        rcases List.mem_cons.mp hq with hq | hq
        · rw [hq]; simp
        · simpa using hle q hq
      · intro j hj hj0
        exact absurd hj0 (Nat.not_lt_zero j)
    · refine ⟨i + 1, Nat.succ_lt_succ hi, ?_, ?_, ?_⟩
      · rw [heq]; simp
      · intro q hq
        rcases List.mem_cons.mp hq with hq | hq
        · rw [hq]; simpa using le_of_lt hgt
        · simpa using hle q hq
      · intro j hj hj1
        cases j with
        | zero => simpa using hgt
        | succ j2 =>
          have hj2 : j2 < rest.length := by
            simp only [List.length_cons] at hj
            omega
          have := hstrict j2 hj2 (by omega)
          simpa using this

lemma brokerAssoc_value (trades : List Trade) :
    ∀ p ∈ accumulate (fun t => t.broker) (fun t => t.pnl) (fun v t => v + t.pnl) trades,
      p.2 = sumPnlFor trades p.1 := by
  intro p hp
  have hnd := accumulate_keys_nodup (fun t => t.broker) (fun t => t.pnl) (fun v t => v + t.pnl) trades
  have hlk := lookupFirst_of_mem_nodup _ hnd p hp
  rw [accumulate_lookup] at hlk
  rw [sumPnlFor]
  cases hf : trades.filter (fun t => t.broker == p.1) with
  | nil =>
    rw [hf] at hlk
    cases hlk
  | cons y ys =>
    rw [hf] at hlk
    have h2 : ys.foldl (fun v t => v + t.pnl) y.pnl = p.2 := by
      injection hlk
    rw [foldl_add_pnl] at h2
    rw [← h2]
    simp

/-- Claim C3: bestBroker is 'N/A' (modelled none) on the empty collection;
otherwise it is a broker whose summed pnl over the collection is maximal,
and among the maximal brokers it is the first encountered in iteration
order, which is first-occurrence order of brokers over the trades. -/
theorem bestBroker_spec (dayOf : String → String) (today : String) (trades : List Trade) :
    (trades = [] → (getMetrics dayOf today trades).bestBroker = none)
    ∧ (trades ≠ [] → ∃ b, (getMetrics dayOf today trades).bestBroker = some b
        ∧ (∀ b2 ∈ trades.map (fun t => t.broker), sumPnlFor trades b2 ≤ sumPnlFor trades b)
        ∧ ∃ i, ∃ hi : i < (firstOccurrences (trades.map (fun t => t.broker))).length,
            (firstOccurrences (trades.map (fun t => t.broker)))[i] = b
            ∧ ∀ j, ∀ hj : j < (firstOccurrences (trades.map (fun t => t.broker))).length,
                j < i → sumPnlFor trades ((firstOccurrences (trades.map (fun t => t.broker)))[j])
                  < sumPnlFor trades b) := by
  constructor
  · intro h
    subst h
    rfl
  · intro h
    have hfst : (accumulate (fun t => t.broker) (fun t => t.pnl) (fun v t => v + t.pnl) trades).map Prod.fst
        = firstOccurrences (trades.map (fun t => t.broker)) :=
      accumulate_fst _ _ _ trades
    have hAne : accumulate (fun t => t.broker) (fun t => t.pnl) (fun v t => v + t.pnl) trades ≠ [] := by
      cases trades with
      | nil => exact absurd rfl h
      | cons t ts =>
        intro hnil
        have hmem : t.broker ∈ (accumulate (fun t => t.broker) (fun t => t.pnl) (fun v t => v + t.pnl) (t :: ts)).map Prod.fst := by
          rw [hfst, firstOccurrences_mem]
          simp
        rw [hnil] at hmem
        simp at hmem
    obtain ⟨i, hi, h1, hle, hstrict⟩ :=
      bestFold_first_argmax (accumulate (fun t => t.broker) (fun t => t.pnl) (fun v t => v + t.pnl) trades) hAne
    refine ⟨((accumulate (fun t => t.broker) (fun t => t.pnl) (fun v t => v + t.pnl) trades)[i]).1, ?_, ?_, ?_⟩
    · exact h1
    · intro b2 hb2
      have hb2A : b2 ∈ (accumulate (fun t => t.broker) (fun t => t.pnl) (fun v t => v + t.pnl) trades).map Prod.fst := by
        rw [hfst, firstOccurrences_mem]
        exact hb2
      obtain ⟨p, hpA, hp1⟩ := List.mem_map.mp hb2A
      have hv := brokerAssoc_value trades p hpA
      have hvi := brokerAssoc_value trades _ (List.getElem_mem hi)
      rw [← hp1, ← hv, ← hvi]
      exact hle p hpA
    · have hlen : (firstOccurrences (trades.map (fun t => t.broker))).length
          = (accumulate (fun t => t.broker) (fun t => t.pnl) (fun v t => v + t.pnl) trades).length := by
        rw [← hfst, List.length_map]
      refine ⟨i, by rw [hlen]; exact hi, ?_, ?_⟩
      · exact (List.getElem_of_eq hfst.symm (by rw [hlen]; exact hi)).trans (by simp)
      · intro j hj hji
        have hjA : j < (accumulate (fun t => t.broker) (fun t => t.pnl) (fun v t => v + t.pnl) trades).length := by
          rw [← hlen]
          exact hj
        have hgj : (firstOccurrences (trades.map (fun t => t.broker)))[j]
            = ((accumulate (fun t => t.broker) (fun t => t.pnl) (fun v t => v + t.pnl) trades)[j]).1 :=
          (List.getElem_of_eq hfst.symm hj).trans (by simp)
        rw [hgj]
        have hvj := brokerAssoc_value trades _ (List.getElem_mem hjA)
        have hvi := brokerAssoc_value trades _ (List.getElem_mem hi)
        rw [← hvj, ← hvi]
        exact hstrict j hjA hji

/-- One bucket of Analysis.strategyStats. -/
structure StratStat where
  name : String
  wins : ℕ
  total : ℕ
  totalPnL : ℚ
  totalConfidence : ℚ
deriving DecidableEq

/-- Folding one trade into its strategy bucket. -/
def updStrat (v : StratStat) (t : Trade) : StratStat :=
  { v with
    wins := v.wins + (if 0 < t.pnl then 1 else 0)
    total := v.total + 1
    totalPnL := v.totalPnL + t.pnl
    totalConfidence := v.totalConfidence + t.confidence }

/-- The source creates a zeroed bucket on first sight of a strategy and
immediately folds the trade in. -/
def initStrat (t : Trade) : StratStat :=
  updStrat { name := t.strategy, wins := 0, total := 0, totalPnL := 0, totalConfidence := 0 } t

/-- Analysis.strategyStats: reduce over the date-filtered trades keyed by
strategy (here over the supplied collection). -/
def strategyStats (trades : List Trade) : List (String × StratStat) :=
  accumulate (fun t => t.strategy) initStrat updStrat trades

/-- One element of Analysis.chartData: the bucket flattened for display,
its win rate passed through Math.round and the average confidence through
toFixed(1). -/
structure ChartPoint where
  name : String
  winRate : ℤ
  avgConfidence : ℚ
  totalPnL : ℚ
deriving DecidableEq

/-- Analysis.chartData. -/
def chartData (trades : List Trade) : List ChartPoint :=
  (strategyStats trades).map (fun kv =>
    { name := kv.2.name
      winRate := jsRound (((kv.2.wins : ℚ) / (kv.2.total : ℚ)) * 100)
      avgConfidence := round1 (kv.2.totalConfidence / (kv.2.total : ℚ))
      totalPnL := kv.2.totalPnL })

/-- One bucket of Analysis.symbolStatsRaw. -/
structure SymRaw where
  symbol : String
  pnl : ℚ
  wins : ℕ
  total : ℕ
deriving DecidableEq

/-- Folding one trade into its symbol bucket. -/
def updSym (v : SymRaw) (t : Trade) : SymRaw :=
  { v with
    total := v.total + 1
    pnl := v.pnl + t.pnl
    wins := v.wins + (if 0 < t.pnl then 1 else 0) }

/-- Zeroed symbol bucket immediately updated with its first trade. -/
def initSym (t : Trade) : SymRaw :=
  updSym { symbol := t.symbol, pnl := 0, wins := 0, total := 0 } t

/-- Analysis.symbolStatsRaw: reduce keyed by symbol. -/
def symbolStatsRaw (trades : List Trade) : List (String × SymRaw) :=
  accumulate (fun t => t.symbol) initSym updSym trades

/-- One row of Analysis.symbolData (the exported SymbolStat shape): the raw
bucket spread plus the win rate through Math.round. -/
structure SymbolStat where
  symbol : String
  pnl : ℚ
  wins : ℕ
  total : ℕ
  winRate : ℤ
deriving DecidableEq

def mkSymbolStat (v : SymRaw) : SymbolStat :=
  { symbol := v.symbol
    pnl := v.pnl
    wins := v.wins
    total := v.total
    winRate := jsRound (((v.wins : ℚ) / (v.total : ℚ)) * 100) }

/-- Insertion into a list ordered by descending pnl, modelling the sort
comparator (a, b) => b.pnl - a.pnl of symbolData. -/
def insertByPnl (x : SymbolStat) : List SymbolStat → List SymbolStat
  | [] => [x]
  | y :: ys => if y.pnl ≤ x.pnl then x :: y :: ys else y :: insertByPnl x ys

def sortByPnlDesc (l : List SymbolStat) : List SymbolStat :=
  l.foldr insertByPnl []

/-- Analysis.symbolData: raw buckets flattened and sorted by descending pnl. -/
def symbolData (trades : List Trade) : List SymbolStat :=
  sortByPnlDesc ((symbolStatsRaw trades).map (fun kv => mkSymbolStat kv.2))

lemma insertByPnl_perm (x : SymbolStat) :
    ∀ l : List SymbolStat, List.Perm (insertByPnl x l) (x :: l) := by
  intro l
  induction l with
  | nil => exact List.Perm.refl _
  | cons y ys ih =>
    rw [insertByPnl]
    by_cases h : y.pnl ≤ x.pnl
    · rw [if_pos h]
    · rw [if_neg h]
      exact List.Perm.trans (List.Perm.cons y ih) (List.Perm.swap x y ys)

lemma sortByPnlDesc_perm : ∀ l, List.Perm (sortByPnlDesc l) l := by
  intro l
  induction l with
  | nil => exact List.Perm.refl _
  | cons x xs ih =>
    have hx : sortByPnlDesc (x :: xs) = insertByPnl x (sortByPnlDesc xs) := rfl
    rw [hx]
    exact List.Perm.trans (insertByPnl_perm x _) (List.Perm.cons x ih)

lemma foldl_updStrat_fields (ys : List Trade) : ∀ v : StratStat,
    (ys.foldl updStrat v).name = v.name
    ∧ (ys.foldl updStrat v).wins = v.wins + ys.countP (fun t => decide (0 < t.pnl))
    ∧ (ys.foldl updStrat v).total = v.total + ys.length
    ∧ (ys.foldl updStrat v).totalPnL = v.totalPnL + (ys.map (fun t => t.pnl)).sum := by
  induction ys with
  | nil => intro v; simp
  | cons y ys ih =>
    intro v
    obtain ⟨h1, h2, h3, h4⟩ := ih (updStrat v y)
    rw [List.foldl_cons]
    refine ⟨by rw [h1]; rfl, ?_, ?_, ?_⟩
    · rw [h2, List.countP_cons]
      simp only [updStrat]
      by_cases hy : 0 < y.pnl
      · simp only [hy, if_true, decide_eq_true_eq, if_pos hy]
        omega
      · simp only [hy, if_false, decide_eq_true_eq, if_neg hy]
        omega
    · rw [h3]
      simp only [updStrat, List.length_cons]
      omega
    · rw [h4]
      simp only [updStrat, List.map_cons, List.sum_cons]
      ring

lemma foldl_updSym_fields (ys : List Trade) : ∀ v : SymRaw,
    (ys.foldl updSym v).symbol = v.symbol
    ∧ (ys.foldl updSym v).wins = v.wins + ys.countP (fun t => decide (0 < t.pnl))
    ∧ (ys.foldl updSym v).total = v.total + ys.length
    ∧ (ys.foldl updSym v).pnl = v.pnl + (ys.map (fun t => t.pnl)).sum := by
  induction ys with
  | nil => intro v; simp
  | cons y ys ih =>
    intro v
    obtain ⟨h1, h2, h3, h4⟩ := ih (updSym v y)
    rw [List.foldl_cons]
    refine ⟨by rw [h1]; rfl, ?_, ?_, ?_⟩
    · rw [h2, List.countP_cons]
      simp only [updSym]
      by_cases hy : 0 < y.pnl
      · simp only [hy, if_true, decide_eq_true_eq, if_pos hy]
        omega
      · simp only [hy, if_false, decide_eq_true_eq, if_neg hy]
        omega
    · rw [h3]
      simp only [updSym, List.length_cons]
      omega
    · rw [h4]
      simp only [updSym, List.map_cons, List.sum_cons]
      ring

lemma strategyStats_bucket (trades : List Trade) :
    ∀ kv ∈ strategyStats trades,
      kv.2.name = kv.1
      ∧ kv.2.wins = trades.countP (fun t => t.strategy == kv.1 && decide (0 < t.pnl))
      ∧ kv.2.total = trades.countP (fun t => t.strategy == kv.1)
      ∧ kv.2.totalPnL = ((trades.filter (fun t => t.strategy == kv.1)).map (fun t => t.pnl)).sum := by
  intro kv hkv
  rw [strategyStats] at hkv
  have hnd := accumulate_keys_nodup (fun t => t.strategy) initStrat updStrat trades
  have hlk := lookupFirst_of_mem_nodup _ hnd kv hkv
  rw [accumulate_lookup] at hlk
  cases hf : trades.filter (fun t => t.strategy == kv.1) with
  | nil =>
    rw [hf] at hlk
    cases hlk
  | cons y ys =>
    rw [hf] at hlk
    have h2 : ys.foldl updStrat (initStrat y) = kv.2 := by injection hlk
    have h3 : (y :: ys).foldl updStrat
        { name := y.strategy, wins := 0, total := 0, totalPnL := 0, totalConfidence := 0 } = kv.2 := by
      rw [List.foldl_cons]
      exact h2
    obtain ⟨g1, g2, g3, g4⟩ := foldl_updStrat_fields (y :: ys)
      { name := y.strategy, wins := 0, total := 0, totalPnL := 0, totalConfidence := 0 }
    rw [h3] at g1 g2 g3 g4
    have hy : y.strategy = kv.1 := by
      have hm : y ∈ trades.filter (fun t => t.strategy == kv.1) := by
        rw [hf]
        exact List.mem_cons_self _ _
      simpa using List.of_mem_filter hm
    refine ⟨g1.trans hy, ?_, ?_, ?_⟩
    · rw [g2, ← hf, List.countP_filter]
      simp [Bool.and_comm]
    · rw [g3, ← hf]
      simp [List.countP_eq_length_filter]
    · rw [g4, ← hf]
      simp

lemma symRaw_bucket (trades : List Trade) :
    ∀ kv ∈ symbolStatsRaw trades,
      kv.2.symbol = kv.1
      ∧ kv.2.wins = trades.countP (fun t => t.symbol == kv.1 && decide (0 < t.pnl))
      ∧ kv.2.total = trades.countP (fun t => t.symbol == kv.1)
      ∧ kv.2.pnl = ((trades.filter (fun t => t.symbol == kv.1)).map (fun t => t.pnl)).sum := by
  intro kv hkv
  rw [symbolStatsRaw] at hkv
  have hnd := accumulate_keys_nodup (fun t => t.symbol) initSym updSym trades
  have hlk := lookupFirst_of_mem_nodup _ hnd kv hkv
  rw [accumulate_lookup] at hlk
  cases hf : trades.filter (fun t => t.symbol == kv.1) with
  | nil =>
    rw [hf] at hlk
    cases hlk
  | cons y ys =>
    rw [hf] at hlk
    have h2 : ys.foldl updSym (initSym y) = kv.2 := by injection hlk
    have h3 : (y :: ys).foldl updSym
        { symbol := y.symbol, pnl := 0, wins := 0, total := 0 } = kv.2 := by
      rw [List.foldl_cons]
      exact h2
    obtain ⟨g1, g2, g3, g4⟩ := foldl_updSym_fields (y :: ys)
      { symbol := y.symbol, pnl := 0, wins := 0, total := 0 }
    rw [h3] at g1 g2 g3 g4
    have hy : y.symbol = kv.1 := by
      have hm : y ∈ trades.filter (fun t => t.symbol == kv.1) := by
        rw [hf]
        exact List.mem_cons_self _ _
      simpa using List.of_mem_filter hm
    refine ⟨g1.trans hy, ?_, ?_, ?_⟩
    · rw [g2, ← hf, List.countP_filter]
      simp [Bool.and_comm]
    · rw [g3, ← hf]
      simp [List.countP_eq_length_filter]
    · rw [g4, ← hf]
      simp

/-- Claim C6: every per-strategy and per-symbol bucket's winRate field is
Math.round of wins/total*100, where wins counts the bucket's trades with
strictly positive pnl; the rounding affects only that display field — the
exact wins, total and summed pnl are retained in the buckets, so the
unrounded rate wins/total*100 stays available for further computation. -/
theorem bucket_winrate_spec (trades : List Trade) :
    (∀ c ∈ chartData trades, ∃ kv ∈ strategyStats trades,
        c.name = kv.1
        ∧ c.winRate = jsRound (((kv.2.wins : ℚ) / (kv.2.total : ℚ)) * 100)
        ∧ kv.2.wins = trades.countP (fun t => t.strategy == kv.1 && decide (0 < t.pnl))
        ∧ kv.2.total = trades.countP (fun t => t.strategy == kv.1))
    ∧ (∀ s ∈ symbolData trades,
        s.winRate = jsRound (((s.wins : ℚ) / (s.total : ℚ)) * 100)
        ∧ s.wins = trades.countP (fun t => t.symbol == s.symbol && decide (0 < t.pnl))
        ∧ s.total = trades.countP (fun t => t.symbol == s.symbol)
        ∧ s.pnl = ((trades.filter (fun t => t.symbol == s.symbol)).map (fun t => t.pnl)).sum) := by
  constructor
  · intro c hc
    rw [chartData] at hc
    obtain ⟨kv, hkv, hckv⟩ := List.mem_map.mp hc
    obtain ⟨b1, b2, b3, b4⟩ := strategyStats_bucket trades kv hkv
    refine ⟨kv, hkv, ?_, ?_, b2, b3⟩
    · rw [← hckv]
      exact b1
    · rw [← hckv]
  · intro s hs
    rw [symbolData] at hs
    have hs2 : s ∈ (symbolStatsRaw trades).map (fun kv => mkSymbolStat kv.2) :=
      (sortByPnlDesc_perm _).mem_iff.mp hs
    obtain ⟨kv, hkv, hskv⟩ := List.mem_map.mp hs2
    obtain ⟨b1, b2, b3, b4⟩ := symRaw_bucket trades kv hkv
    refine ⟨?_, ?_, ?_, ?_⟩
    · rw [← hskv]
      simp [mkSymbolStat]
    · rw [← hskv]
      show kv.2.wins = trades.countP (fun t => t.symbol == kv.2.symbol && decide (0 < t.pnl))
      rw [show kv.2.symbol = kv.1 from b1]
      exact b2
    · rw [← hskv]
      show kv.2.total = trades.countP (fun t => t.symbol == kv.2.symbol)
      rw [show kv.2.symbol = kv.1 from b1]
      exact b3
    · rw [← hskv]
      show kv.2.pnl = ((trades.filter (fun t => t.symbol == kv.2.symbol)).map (fun t => t.pnl)).sum
      rw [show kv.2.symbol = kv.1 from b1]
      exact b4

/-- The sortable fields of the TradeHistory table. -/
inductive SortField
  | date
  | symbol
  | broker
  | totalPnL
  | totalQty
deriving DecidableEq

/-- The sort direction toggled by the column headers. -/
inductive SortDirection
  | asc
  | desc
deriving DecidableEq

/-- The comparison block of the sort callback in TradeHistory.groupedTrades:
if valA is less return -1 for ascending and 1 for descending, if greater the
opposite, otherwise 0. -/
def cmpDir {α : Type} [LinearOrder α] (dir : SortDirection) (x y : α) : ℤ :=
  if x < y then (if dir = SortDirection.asc then -1 else 1)
  else if y < x then (if dir = SortDirection.asc then 1 else -1)
  else 0

/-- The full sort callback: the date field is compared through getTime (the
timestamp instant of new Date(d), passed in as a function), the string
fields after toLowerCase, and the numeric totals directly. -/
def cmpGroups (getTime : String → ℤ) (field : SortField) (dir : SortDirection)
    (a b : GroupedTrade) : ℤ :=
  match field with
  | SortField.date => cmpDir dir (getTime a.date) (getTime b.date)
  | SortField.symbol => cmpDir dir a.symbol.toLower b.symbol.toLower
  | SortField.broker => cmpDir dir a.broker.toLower b.broker.toLower
  | SortField.totalPnL => cmpDir dir a.totalPnL b.totalPnL
  | SortField.totalQty => cmpDir dir a.totalQty b.totalQty

lemma cmpDir_neg_iff {α : Type} [LinearOrder α] (x y : α) :
    cmpDir SortDirection.asc x y < 0 ↔ x < y := by
  rcases lt_trichotomy x y with h | h | h
  · simp [cmpDir, h]
  · simp [cmpDir, h, lt_irrefl]
  · simp [cmpDir, h, not_lt_of_gt h]

lemma cmpDir_zero_iff {α : Type} [LinearOrder α] (x y : α) :
    cmpDir SortDirection.asc x y = 0 ↔ x = y := by
  rcases lt_trichotomy x y with h | h | h
  · simp [cmpDir, h, ne_of_lt h]
  · simp [cmpDir, h, lt_irrefl]
  · simp [cmpDir, h, not_lt_of_gt h, (ne_of_lt h).symm]

lemma cmpDir_desc_neg {α : Type} [LinearOrder α] (x y : α) :
    cmpDir SortDirection.desc x y = -(cmpDir SortDirection.asc x y) := by
  rcases lt_trichotomy x y with h | h | h
  · simp [cmpDir, h]
  · simp [cmpDir, h, lt_irrefl]
  · simp [cmpDir, h, not_lt_of_gt h]

/-- Claim C7: the sort comparator ranks any pair of groups on the date field
by the timestamp instant getTime (not by the display string), on the string
fields symbol and broker case-insensitively (the result depends only on the
lowercased strings, which also order the pair), and for every field the
descending direction is the exact negation of the ascending comparison. -/
theorem sortGroups_comparator_spec (getTime : String → ℤ) (a b : GroupedTrade) :
    (cmpGroups getTime SortField.date SortDirection.asc a b < 0 ↔ getTime a.date < getTime b.date)
    ∧ (cmpGroups getTime SortField.date SortDirection.asc a b = 0 ↔ getTime a.date = getTime b.date)
    ∧ (cmpGroups getTime SortField.symbol SortDirection.asc a b < 0
        ↔ a.symbol.toLower < b.symbol.toLower)
    ∧ (cmpGroups getTime SortField.symbol SortDirection.asc a b = 0
        ↔ a.symbol.toLower = b.symbol.toLower)
    ∧ (cmpGroups getTime SortField.broker SortDirection.asc a b < 0
        ↔ a.broker.toLower < b.broker.toLower)
    ∧ (cmpGroups getTime SortField.broker SortDirection.asc a b = 0
        ↔ a.broker.toLower = b.broker.toLower)
    ∧ ∀ field : SortField, cmpGroups getTime field SortDirection.desc a b
        = -(cmpGroups getTime field SortDirection.asc a b) := by
  refine ⟨cmpDir_neg_iff _ _, cmpDir_zero_iff _ _, cmpDir_neg_iff _ _, cmpDir_zero_iff _ _,
    cmpDir_neg_iff _ _, cmpDir_zero_iff _ _, ?_⟩
  intro field
  cases field with
  | date => exact cmpDir_desc_neg _ _
  | symbol => exact cmpDir_desc_neg _ _
  | broker => exact cmpDir_desc_neg _ _
  | totalPnL => exact cmpDir_desc_neg _ _
  | totalQty => exact cmpDir_desc_neg _ _

/-- A winning equity trade used as a concrete witness input. -/
def wTradeA : Trade :=
  { id := "a"
    date := "d1"
    symbol := "INFY"
    broker := "Zerodha"
    entryPrice := 100
    exitPrice := 110
    quantity := 2
    pnl := 20
    segment := "Equity"
    productType := none
    confidence := 5
    strategy := "Manual"
    notes := ""
    mistake := ""
    aiAnalysis := none }

/-- A losing intraday trade at a second broker used as a witness input. -/
def wTradeB : Trade :=
  { id := "b"
    date := "d1"
    symbol := "TCS"
    broker := "Fyers"
    entryPrice := 50
    exitPrice := 45
    quantity := 1
    pnl := -5
    segment := "Equity"
    productType := some "Intraday"
    confidence := 4
    strategy := "Breakout"
    notes := ""
    mistake := ""
    aiAnalysis := none }

/-- An edited copy of wTradeA supplied to a bulk update. -/
def wTradeA2 : Trade :=
  { wTradeA with exitPrice := 120, pnl := 40, notes := "edited" }

theorem grouping_sum_witness :
    ((groupTrades (fun s => s) [wTradeA, wTradeB]).map (fun g => g.totalPnL)).sum
      = ([wTradeA, wTradeB].map (fun t => t.pnl)).sum :=
  (grouping_sum_spec (fun s => s) [wTradeA, wTradeB]).1

theorem bestBroker_witness :
    ∃ bk, (getMetrics (fun s => s) "today" [wTradeA, wTradeB]).bestBroker = some bk
      ∧ (∀ b2 ∈ [wTradeA, wTradeB].map (fun t => t.broker),
          sumPnlFor [wTradeA, wTradeB] b2 ≤ sumPnlFor [wTradeA, wTradeB] bk)
      ∧ ∃ i, ∃ hi : i < (firstOccurrences ([wTradeA, wTradeB].map (fun t => t.broker))).length,
          (firstOccurrences ([wTradeA, wTradeB].map (fun t => t.broker)))[i] = bk
          ∧ ∀ j, ∀ hj : j < (firstOccurrences ([wTradeA, wTradeB].map (fun t => t.broker))).length,
              j < i →
                sumPnlFor [wTradeA, wTradeB]
                    ((firstOccurrences ([wTradeA, wTradeB].map (fun t => t.broker)))[j])
                  < sumPnlFor [wTradeA, wTradeB] bk :=
  (bestBroker_spec (fun s => s) "today" [wTradeA, wTradeB]).2 (by simp)

theorem bucket_winrate_witness :
    ({ symbol := "INFY", pnl := 20, wins := 1, total := 1, winRate := 100 } : SymbolStat).winRate
        = jsRound (((({ symbol := "INFY", pnl := 20, wins := 1, total := 1, winRate := 100 } : SymbolStat).wins : ℚ)
            / (({ symbol := "INFY", pnl := 20, wins := 1, total := 1, winRate := 100 } : SymbolStat).total : ℚ)) * 100)
    ∧ ({ symbol := "INFY", pnl := 20, wins := 1, total := 1, winRate := 100 } : SymbolStat).wins
        = [wTradeA].countP (fun t => t.symbol == ({ symbol := "INFY", pnl := 20, wins := 1, total := 1, winRate := 100 } : SymbolStat).symbol && decide (0 < t.pnl))
    ∧ ({ symbol := "INFY", pnl := 20, wins := 1, total := 1, winRate := 100 } : SymbolStat).total
        = [wTradeA].countP (fun t => t.symbol == ({ symbol := "INFY", pnl := 20, wins := 1, total := 1, winRate := 100 } : SymbolStat).symbol)
    ∧ ({ symbol := "INFY", pnl := 20, wins := 1, total := 1, winRate := 100 } : SymbolStat).pnl
        = (([wTradeA].filter (fun t => t.symbol == ({ symbol := "INFY", pnl := 20, wins := 1, total := 1, winRate := 100 } : SymbolStat).symbol)).map (fun t => t.pnl)).sum :=
  (bucket_winrate_spec [wTradeA]).2
    { symbol := "INFY", pnl := 20, wins := 1, total := 1, winRate := 100 }
    (by
      norm_num [symbolData, symbolStatsRaw, accumulate, List.foldl_cons, List.foldl_nil,
        List.foldr_cons, List.foldr_nil, bumpAssoc, initSym, updSym, mkSymbolStat,
        sortByPnlDesc, insertByPnl, jsRound, wTradeA, Int.floor_eq_iff])

theorem productType_default_witness :
    wTradeA ∈ filterTrades none none none (some "Delivery") [wTradeA]
    ∧ wTradeA ∉ filterTrades none none none (some "Intraday") [wTradeA] :=
  productType_default_spec [wTradeA] wTradeA (by simp) rfl

theorem updateTradesBulk_witness :
    (updateTradesBulk [wTradeA2] [wTradeA, wTradeB]).map (fun t => t.id)
      = [wTradeA, wTradeB].map (fun t => t.id)
    ∧ (updateTradesBulk [wTradeA2] [wTradeA, wTradeB]).get ⟨1, by decide⟩ = wTradeB
    ∧ (updateTradesBulk [wTradeA2] [wTradeA, wTradeB]).get ⟨0, by decide⟩ ∈ [wTradeA2] :=
  ⟨(updateTradesBulk_frame [wTradeA2] [wTradeA, wTradeB]).2.1,
   ((updateTradesBulk_frame [wTradeA2] [wTradeA, wTradeB]).2.2 1 (by decide) (by decide)).1
     (by decide),
   (((updateTradesBulk_frame [wTradeA2] [wTradeA, wTradeB]).2.2 0 (by decide) (by decide)).2
     (by decide)).1⟩

theorem addStrategy_witness :
    addStrategy ["Manual"] "Manual" = ["Manual"]
    ∧ addStrategy ["Manual"] "Breakout" = ["Manual", "Breakout"]
    ∧ (addStrategy ["Manual"] "Breakout").Nodup :=
  ⟨(addStrategy_spec ["Manual"] "Manual").1 (by decide),
   (addStrategy_spec ["Manual"] "Breakout").2.1 (by decide),
   (addStrategy_spec ["Manual"] "Breakout").2.2 (by decide)⟩
